import Mathlib

/-!
# Verification of the graph-node storage core (`graph/src/components/store.rs`)

A shallow embedding of the entity cache, modification planner, query
simplification, store-event throttler and chain-head tracker of the
repository, together with theorems settling the specification claims.
-/

set_option linter.unusedVariables false

namespace GraphStore


/-! ## Attribute values and entities

`Entity` and `Value` live in `crate::data::store`, which is not part of the
source under verification; they are modelled from the spec (§3): values are a
tagged union of scalar types and homogeneous lists of scalars, plus null.
-/

/-- Modelled from the spec: scalar attribute values (string, integer,
big-integer, boolean, bytes, big-decimal). -/
inductive ScalarValue where
  | str (s : String)
  | int (n : Int)
  | bigInt (n : Int)
  | boolv (b : Bool)
  | bytes (b : String)
  | bigDecimal (d : String)
deriving DecidableEq, Repr

/-- Modelled from the spec: an attribute value is a scalar, a homogeneous
list of scalars, or null. -/
inductive Value where
  | scalar (s : ScalarValue)
  | list (vs : List ScalarValue)
  | null
deriving DecidableEq, Repr

abbrev Attribute := String

/-- Modelled from the spec: an entity is a mapping from attribute name to
value (`Entity` wraps a `HashMap<Attribute, Value>`); we represent the map
as an association list whose lookup takes the first (most recent) binding. -/
abbrev Entity := List (Attribute × Value)

namespace Entity

/-- First-match lookup of an attribute. -/
def lookupAttr : Entity → Attribute → Option Value
  | [], _ => none
  | (a, v) :: t, k => if a = k then some v else lookupAttr t k

/-- Modelled from the spec: removing an attribute (`HashMap::remove`). -/
def eraseAttr : Entity → Attribute → Entity
  | [], _ => []
  | (a, v) :: t, k => if a = k then eraseAttr t k else (a, v) :: eraseAttr t k

/-- Modelled from the spec: inserting an attribute replaces any previous
binding (`HashMap::insert`). -/
def insertAttr (e : Entity) (k : Attribute) (v : Value) : Entity :=
  (k, v) :: e.eraseAttr k

/-- Modelled from the spec: `merge` overwrites — every attribute of the
incoming map is written into the base, null values included. -/
def merge (e update : Entity) : Entity :=
  update.foldl (fun acc kv => acc.insertAttr kv.1 kv.2) e

/-- Modelled from the spec: `merge_remove_null_fields` treats null
attributes in the incoming map as deletions of that attribute in the base;
any other attribute overwrites. -/
def merge_remove_null_fields (e update : Entity) : Entity :=
  update.foldl
    (fun acc kv =>
      if kv.2 = Value.null then acc.eraseAttr kv.1 else acc.insertAttr kv.1 kv.2)
    e

/-- Value equality of entities, as `HashMap` equality compares key-value
sets: every attribute of either side looks up equal. -/
def eqv (a b : Entity) : Bool :=
  (a.map Prod.fst ++ b.map Prod.fst).all
    fun k => decide (a.lookupAttr k = b.lookupAttr k)

/-- The attribute keys of an entity. -/
def keys (e : Entity) : List Attribute := e.map Prod.fst

end Entity

/-! ## Identifiers and keys (store.rs 37-177) -/

abbrev SubgraphDeploymentId := String

/-- `EntityType` (store.rs 37-41): tagged union of a user-schema data type
name and a metadata kind (the `MetadataType` enum is kept abstract as its
string form). -/
inductive EntityType where
  | data (name : String)
  | metadata (typ : String)
deriving DecidableEq, Repr

/-- `EntityKey` (store.rs 117-128): triple of deployment, entity type and
entity id. -/
structure EntityKey where
  subgraph_id : SubgraphDeploymentId
  entity_type : EntityType
  entity_id : String
deriving DecidableEq, Repr

/-! ## Entity operations of the cache (store.rs 1526-1565) -/

/-- `EntityOp` (store.rs 1527-1532): a representation of entity operations
that can be accumulated. -/
inductive EntityOp where
  | remove
  | update (e : Entity)
  | overwrite (e : Entity)
deriving DecidableEq, Repr

namespace EntityOp

/-- `EntityOp::apply_to` (store.rs 1535-1545): `Remove` yields nothing;
`Overwrite` and `Update`-on-absent yield the new entity; `Update` on a
present entity merges with null-removal. -/
def apply_to (op : EntityOp) (entity : Option Entity) : Option Entity :=
  match op, entity with
  | .remove, _ => none
  | .overwrite new, _ => some new
  | .update new, none => some new
  | .update updates, some e => some (e.merge_remove_null_fields updates)

/-- `EntityOp::accumulate` (store.rs 1547-1564): `Remove` and `Overwrite`
ignore the current value; an `Update` is merged (with plain `merge`) into a
current `Update` or `Overwrite`, and promotes a current `Remove` to
`Overwrite`. -/
def accumulate (current next : EntityOp) : EntityOp :=
  match next with
  | .remove => .remove
  | .overwrite u => .overwrite u
  | .update u =>
    match current with
    | .remove => .overwrite u
    | .update c => .update (c.merge u)
    | .overwrite c => .overwrite (c.merge u)

end EntityOp

/-! ## Query algebra (store.rs 208-507) -/

/-- `EntityFilter` (store.rs 209-227). -/
inductive EntityFilter where
  | and (fs : List EntityFilter)
  | or (fs : List EntityFilter)
  | equal (a : Attribute) (v : Value)
  | not (a : Attribute) (v : Value)
  | greaterThan (a : Attribute) (v : Value)
  | lessThan (a : Attribute) (v : Value)
  | greaterOrEqual (a : Attribute) (v : Value)
  | lessOrEqual (a : Attribute) (v : Value)
  | inVals (a : Attribute) (vs : List Value)
  | notInVals (a : Attribute) (vs : List Value)
  | contains (a : Attribute) (v : Value)
  | notContains (a : Attribute) (v : Value)
  | startsWith (a : Attribute) (v : Value)
  | notStartsWith (a : Attribute) (v : Value)
  | endsWith (a : Attribute) (v : Value)
  | notEndsWith (a : Attribute) (v : Value)

/-- `EntityFilter::and_maybe` (store.rs 248-268): conjoin with an optional
second filter, flattening when either side is already an `And`. -/
def EntityFilter.and_maybe (self : EntityFilter) (other : Option EntityFilter) :
    EntityFilter :=
  match other with
  | some other =>
    match self, other with
    | .and fs1, .and fs2 => .and (fs1 ++ fs2)
    | .and fs1, f2 => .and (fs1 ++ [f2])
    | f1, .and fs2 => .and (fs2 ++ [f1])
    | f1, f2 => .and [f1, f2]
  | none => self

/-- `EntityOrder` (store.rs 272-283). -/
inductive EntityOrder where
  | ascending (attr : String) (ty : String)
  | descending (attr : String) (ty : String)
  | default
  | unordered

/-- `EntityRange` (store.rs 286-293). -/
structure EntityRange where
  first : Option Nat
  skip : Nat

/-- `WindowAttribute` (store.rs 309-313). -/
inductive WindowAttribute where
  | scalar (name : String)
  | list (name : String)

/-- `ParentLink` (store.rs 326-335). -/
inductive ParentLink where
  | list (ids : List (List String))
  | scalar (ids : List String)

/-- `ChildMultiplicity` (store.rs 339-343). -/
inductive ChildMultiplicity where
  | single
  | many

/-- `EntityLink` (store.rs 348-354). -/
inductive EntityLink where
  | direct (attr : WindowAttribute) (mult : ChildMultiplicity)
  | parent (link : ParentLink)

/-- `EntityWindow` (store.rs 365-373). -/
structure EntityWindow where
  child_type : String
  ids : List String
  link : EntityLink

/-- `EntityCollection` (store.rs 380-392). -/
inductive EntityCollection where
  | all (types : List String)
  | window (windows : List EntityWindow)

/-- `EntityQuery` (store.rs 404-435); the logger and the private
constructor-forcing field are omitted. -/
structure EntityQuery where
  subgraph_id : SubgraphDeploymentId
  block : Int
  collection : EntityCollection
  filter : Option EntityFilter
  order : EntityOrder
  range : EntityRange
  query_id : Option String

/-- `EntityQuery::simplify` (store.rs 481-506): a `Window` of exactly one
window with exactly one parent id and a `Direct` link is rewritten to an
`All` collection over the child type, the window becoming a filter conjunct
(`Equal` for a scalar attribute, `Contains` for a list attribute). -/
def EntityQuery.simplify (q : EntityQuery) : EntityQuery :=
  match q.collection with
  | .window [w] =>
    match w.ids with
    | [id] =>
      match w.link with
      | .direct attr _ =>
        let filter :=
          match attr with
          | .scalar name => EntityFilter.equal name (Value.scalar (.str id))
          | .list name => EntityFilter.contains name (Value.list [.str id])
        { q with
          filter := some (filter.and_maybe q.filter),
          collection := .all [w.child_type] }
      | .parent _ => q
    | _ => q
  | _ => q

/-! ## Key-indexed association maps

The Rust code stores per-key state in `HashMap` / `LfuCache` keyed by
`EntityKey`; both are modelled as association lists with first-match lookup
(entries are unique by construction: insertion replaces).
-/

abbrev KMap (ν : Type) := List (EntityKey × ν)

def KMap.get {ν : Type} : KMap ν → EntityKey → Option ν
  | [], _ => none
  | (k', v) :: t, k => if k' = k then some v else KMap.get t k

def KMap.erase {ν : Type} : KMap ν → EntityKey → KMap ν
  | [], _ => []
  | (k', v) :: t, k => if k' = k then KMap.erase t k else (k', v) :: KMap.erase t k

def KMap.insert {ν : Type} (m : KMap ν) (k : EntityKey) (v : ν) : KMap ν :=
  (k, v) :: m.erase k

def KMap.keys {ν : Type} (m : KMap ν) : List EntityKey := m.map Prod.fst

/-! ## The entity cache (store.rs 1567-1826) -/

/-- Store errors are kept abstract: only their identity matters for the
claims (propagation unchanged). -/
abbrev QueryExecutionError := String

/-- The snapshot cache `LfuCache<EntityKey, Option<Entity>>`: an entry of
`none` means the entity is known to be absent from the store. The LFU
eviction policy is resource management and is not modelled. -/
abbrev Cache := KMap (Option Entity)

/-- `LfuCache::get_entity` (store.rs 1808-1825): cached lookup of an entity;
on a miss the store is consulted, a `__typename` attribute is stripped, and
the result (present or absent) is cached. Store errors propagate. -/
def Cache.get_entity (c : Cache)
    (store : EntityKey → Except QueryExecutionError (Option Entity))
    (k : EntityKey) : Except QueryExecutionError (Option Entity × Cache) :=
  match c.get k with
  | none =>
    match store k with
    | .error e => .error e
    | .ok entity =>
      let entity := entity.map (fun e => e.eraseAttr "__typename")
      .ok (entity, c.insert k entity)
  | some data => .ok (data, c)

/-- `EntityCache` (store.rs 1574-1590): snapshot cache, accumulated block
updates, handler-scoped updates and the handler flag. The store reference is
passed to the operations instead of being a field. -/
structure EntityCache where
  current : Cache
  updates : KMap EntityOp
  handler_updates : KMap EntityOp
  in_handler : Bool

namespace EntityCache

/-- `EntityCache::new` (store.rs 1607-1615). -/
def new : EntityCache := ⟨[], [], [], false⟩

/-- `EntityCache::get` (store.rs 1652-1662): read-through snapshot, then the
block-buffer op, then the handler-buffer op; also returns the snapshot cache
updated by the read-through. -/
def get (s : EntityCache)
    (store : EntityKey → Except QueryExecutionError (Option Entity))
    (k : EntityKey) : Except QueryExecutionError (Option Entity × Cache) :=
  match s.current.get_entity store k with
  | .error e => .error e
  | .ok (entity, current') =>
    let entity :=
      match s.updates.get k with
      | some op => op.apply_to entity
      | none => entity
    let entity :=
      match s.handler_updates.get k with
      | some op => op.apply_to entity
      | none => entity
    .ok (entity, current')

/-- `EntityCache::entity_op` (store.rs 1687-1701): record an op in the
handler buffer (inside a handler) or the block buffer, accumulating onto an
existing op for the same key. -/
def entity_op (s : EntityCache) (k : EntityKey) (op : EntityOp) : EntityCache :=
  if s.in_handler then
    { s with handler_updates :=
        match s.handler_updates.get k with
        | none => s.handler_updates.insert k op
        | some cur => s.handler_updates.insert k (cur.accumulate op) }
  else
    { s with updates :=
        match s.updates.get k with
        | none => s.updates.insert k op
        | some cur => s.updates.insert k (cur.accumulate op) }

/-- `EntityCache::set` (store.rs 1668-1670). -/
def set (s : EntityCache) (k : EntityKey) (e : Entity) : EntityCache :=
  s.entity_op k (.update e)

/-- `EntityCache::remove` (store.rs 1664-1666). -/
def remove (s : EntityCache) (k : EntityKey) : EntityCache :=
  s.entity_op k .remove

/-- `EntityCache::enter_handler` (store.rs 1630-1633). -/
def enter_handler (s : EntityCache) : EntityCache :=
  { s with in_handler := true }

/-- `EntityCache::exit_handler` (store.rs 1635-1644): fold every handler
update into the block buffer via `entity_op` (hence `accumulate`). -/
def exit_handler (s : EntityCache) : EntityCache :=
  let s' : EntityCache := { s with in_handler := false, handler_updates := [] }
  s.handler_updates.foldl (fun acc kv => acc.entity_op kv.1 kv.2) s'

/-- `EntityCache::exit_handler_and_discard_changes` (store.rs 1646-1650). -/
def exit_handler_and_discard_changes (s : EntityCache) : EntityCache :=
  { s with in_handler := false, handler_updates := [] }

end EntityCache

/-! ## The modification planner (store.rs 1497-1803) -/

/-- `EntityModification` (store.rs 1500-1508). -/
inductive EntityModification where
  | insert (key : EntityKey) (data : Entity)
  | overwrite (key : EntityKey) (data : Entity)
  | remove (key : EntityKey)
deriving DecidableEq, Repr

/-- `EntityModification::entity_key` (store.rs 1511-1516). -/
def EntityModification.entity_key : EntityModification → EntityKey
  | .insert key _ => key
  | .overwrite key _ => key
  | .remove key => key

/-- The missing-snapshot fetch of `as_modifications` (store.rs 1723-1752):
keys with buffered updates but no snapshot entry are read from the store
(one batched `get_many` in the source, modelled per key) and found entities
are cached; absent entities leave no entry. -/
def fetchStep (c : Cache) (store : EntityKey → Option Entity)
    (k : EntityKey) : Cache :=
  if (c.get k).isSome then c
  else
    match store k with
    | some e => c.insert k (some e)
    | none => c

def fetchMissing (updates : KMap EntityOp) (c : Cache)
    (store : EntityKey → Option Entity) : Cache :=
  updates.foldl (fun acc kv => fetchStep acc store kv.1) c

/-- One iteration of the planning loop of `as_modifications`
(store.rs 1754-1798): take the key's snapshot out of the cache, combine it
with the buffered op, re-insert the post-state and possibly emit a
modification. -/
def planStep (c : Cache) (k : EntityKey) (op : EntityOp) :
    Option EntityModification × Cache :=
  let current := (c.get k).join
  let c := c.erase k
  match current, op with
  | none, .update updates =>
    let data := Entity.merge_remove_null_fields [] updates
    (some (.insert k data), c.insert k (some data))
  | none, .overwrite updates =>
    let data := Entity.merge_remove_null_fields [] updates
    (some (.insert k data), c.insert k (some data))
  | some cur, .update updates =>
    let data := cur.merge_remove_null_fields updates
    ((if cur.eqv data then none else some (.overwrite k data)), c.insert k (some data))
  | some cur, .overwrite data =>
    ((if cur.eqv data then none else some (.overwrite k data)), c.insert k (some data))
  | some _, .remove => (some (.remove k), c.insert k none)
  | none, .remove => (none, c)

/-- The planning loop of `as_modifications` over all buffered updates. -/
def runPlan : KMap EntityOp → Cache → List EntityModification × Cache
  | [], c => ([], c)
  | (k, op) :: rest, c =>
    let step := planStep c k op
    let tail := runPlan rest step.2
    (step.1.toList ++ tail.1, tail.2)

/-- `EntityCache::as_modifications` (store.rs 1717-1803): fetch missing
snapshots, then fold the block buffer into modifications and the updated
snapshot cache. -/
def EntityCache.as_modifications (s : EntityCache)
    (store : EntityKey → Option Entity) : List EntityModification × Cache :=
  runPlan s.updates (fetchMissing s.updates s.current store)

/-- The §4.3 planner table, written from the spec for comparison with the
code: `current` is the snapshot, the result the emitted modification.
"Differs" is value equality. -/
def specPlannedMod (k : EntityKey) (current : Option Entity) (op : EntityOp) :
    Option EntityModification :=
  match current, op with
  | none, .update u => some (.insert k (Entity.merge_remove_null_fields [] u))
  | none, .overwrite u => some (.insert k (Entity.merge_remove_null_fields [] u))
  | some c, .update u =>
    let data := c.merge_remove_null_fields u
    if c.eqv data then none else some (.overwrite k data)
  | some c, .overwrite u =>
    if c.eqv u then none else some (.overwrite k u)
  | some _, .remove => some (.remove k)
  | none, .remove => none

/-- The post-modification stored value of a key, per the §4.3 table. -/
def specPost (current : Option Entity) (op : EntityOp) : Option Entity :=
  match current, op with
  | none, .update u => some (Entity.merge_remove_null_fields [] u)
  | none, .overwrite u => some (Entity.merge_remove_null_fields [] u)
  | some c, .update u => some (c.merge_remove_null_fields u)
  | some _, .overwrite u => some u
  | _, .remove => none

/-- The snapshot-cache entry of a key after planning it, per the §4.3
table: every case re-caches the post-state, except a `Remove` of an absent
entity, which leaves no entry. -/
def specEntry (current : Option Entity) (op : EntityOp) :
    Option (Option Entity) :=
  match current, op with
  | none, .remove => none
  | c, o => some (specPost c o)

/-! ## Store events and the throttler (store.rs 509-789) -/

/-- `EntityChangeOperation` (store.rs 512-517). -/
inductive EntityChangeOperation where
  | set
  | removed
deriving DecidableEq, Repr

/-- `EntityChange` (store.rs 520-530). -/
structure EntityChange where
  subgraph_id : SubgraphDeploymentId
  entity_type : EntityType
  entity_id : String
  operation : EntityChangeOperation
deriving DecidableEq, Repr

/-- `StoreEvent` (store.rs 568-573); the `HashSet` of changes is modelled as
a list with set (membership) semantics. -/
structure StoreEvent where
  tag : Nat
  changes : List EntityChange
deriving DecidableEq, Repr

/-- `StoreEvent::accumulate` (store.rs 612-620): extend `ev1` with `ev2`'s
changes; if `ev1` is `None`, just set it to `ev2`. -/
def StoreEvent.accum (ev1 : Option StoreEvent) (ev2 : StoreEvent) :
    Option StoreEvent :=
  match ev1 with
  | some e => some { e with changes := e.changes ++ ev2.changes }
  | none => some ev2

/-!
### The throttler as a discrete state machine

`throttle_while_syncing` (store.rs 699-789) is a `poll_fn` closure. Real
time (the `delay_for` timer, the sync-probe refresh clock) cannot live in a
shallow embedding, so one invocation of the closure while the deployment is
not synced is modelled as a transition on the closure's captured state
(`had_err`, `pending_event`), driven by an input record saying whether the
interval timer had fired at this poll, which events the inner loop drained
from the source, and how the source's poll sequence ended (`NotReady`,
`Ready(None)` or `Err`). The once-synced path (store.rs 740-742) returns the
source's poll verbatim and is modelled by `pollSynced`.
-/

/-- How the inner source-draining loop of one poll ends. -/
inductive SourceTerm where
  | notReady
  | ended
  | errored
deriving DecidableEq, Repr

/-- The modelled input of one poll of the throttled stream. -/
structure PollIn where
  timerFired : Bool
  evs : List StoreEvent
  term : SourceTerm
deriving DecidableEq, Repr

/-- The result of one poll: an error, not-ready, or `Ready` (with
`ready none` being end-of-stream). -/
inductive PollOut where
  | err
  | notReady
  | ready (ev : Option StoreEvent)
deriving DecidableEq, Repr

/-- The captured mutable state of the `poll_fn` closure (store.rs 721-723)
relevant while not synced. -/
structure ThrottleState where
  hadErr : Bool
  pending : Option StoreEvent
deriving DecidableEq, Repr

/-- One poll of `throttle_while_syncing` while the deployment is not synced
(store.rs 727-787): a deferred error is reported first; otherwise all
drained events are accumulated into the pending event and the loop's
terminal result decides what is returned. -/
def pollStep (s : ThrottleState) (i : PollIn) : PollOut × ThrottleState :=
  if s.hadErr then (.err, { s with hadErr := false })
  else
    let pending := i.evs.foldl StoreEvent.accum s.pending
    match i.term with
    | .notReady =>
      if i.timerFired ∧ pending.isSome then (.ready pending, ⟨false, none⟩)
      else (.notReady, { s with pending := pending })
    | .ended => (.ready pending, { s with pending := none })
    | .errored =>
      if pending.isSome then (.ready pending, ⟨true, none⟩)
      else (.err, { s with pending := pending })

/-- The poll of the throttled stream once the deployment is synced
(store.rs 740-742): the source's poll result is passed through unchanged. -/
def pollSynced (sourcePoll : PollOut) : PollOut := sourcePoll

/-- Run a sequence of polls from a state, collecting the outputs. -/
def runPolls (s : ThrottleState) : List PollIn → List PollOut × ThrottleState
  | [] => ([], s)
  | i :: rest =>
    let step := pollStep s i
    let tail := runPolls step.2 rest
    (step.1 :: tail.1, tail.2)

/-- The changes carried by a pending accumulator. -/
def pendingChanges : Option StoreEvent → List EntityChange
  | some e => e.changes
  | none => []

/-- The changes carried by one poll output. -/
def outChanges : PollOut → List EntityChange
  | .ready (some ev) => ev.changes
  | _ => []

/-- All changes of a list of events. -/
def evsChanges (evs : List StoreEvent) : List EntityChange :=
  evs.foldr (fun e a => e.changes ++ a) []

/-- All changes emitted by a list of poll outputs. -/
def emittedChanges (outs : List PollOut) : List EntityChange :=
  outs.foldr (fun o a => outChanges o ++ a) []

/-- All changes yielded by the source over a list of polls. -/
def sourcedChanges (ins : List PollIn) : List EntityChange :=
  ins.foldr (fun i a => evsChanges i.evs ++ a) []

/-! ## Chain head tracker (§4.5)

`attempt_chain_head_update` is declared in `ChainStore` (store.rs 1348-1364)
but implemented outside the sources under verification; it is modelled from
the spec.
-/

/-- A stored block: `(hash, number, parent_hash)`. -/
structure Block where
  hash : String
  number : Nat
  parentHash : String
deriving DecidableEq, Repr

/-- The chain store's state: the stored blocks and the head pointer. -/
structure ChainState where
  blocks : List Block
  head : Option Block
deriving DecidableEq, Repr

/-- Find a stored block by hash. -/
def lookupBlock (blocks : List Block) (h : String) : Option Block :=
  blocks.find? (fun b => b.hash == h)

/-- A block of maximum number among the stored blocks (ties are broken
arbitrarily; this model keeps the first). -/
def candidate (blocks : List Block) : Option Block :=
  blocks.foldl
    (fun best b =>
      match best with
      | none => some b
      | some c => if b.number > c.number then some b else best)
    none

/-- Walk `n` steps up the parent chain from `b`, returning the first
missing parent hash (the nonexhaustive missing-blocks list of the trait
doc), or `[]` when the walk is fully resident. -/
def walkMissing (blocks : List Block) : Block → Nat → List String
  | _, 0 => []
  | b, n + 1 =>
    match lookupBlock blocks b.parentHash with
    | none => [b.parentHash]
    | some p => walkMissing blocks p n

/-- Whether the candidate's number does not exceed the current head's. -/
def notAboveHead (c : Block) : Option Block → Bool
  | some h => decide (c.number ≤ h.number)
  | none => false

/-- Modelled from the spec: `attempt_chain_head_update(ancestor_count)`
(§4.5, `ChainStore` trait doc at store.rs 1348-1364). Let `C` be a block of
maximum number; if its number is not above the current head's, do nothing
and return empty. Otherwise walk the parent chain — the walk cannot go
below the genesis block, so it takes `min ancestor_count C.number` steps,
the boundary pinned by the `genesis_only` and `short_chain_missing_parent`
tests (tests/chain_head.rs 85-116). On a missing parent, return the missing
hashes and leave the head; otherwise move the head to `C` and return
empty. -/
def attempt_chain_head_update (s : ChainState) (ancestor_count : Nat) :
    List String × ChainState :=
  match candidate s.blocks with
  | none => ([], s)
  | some c =>
    if notAboveHead c s.head then ([], s)
    else
      let missing := walkMissing s.blocks c (min ancestor_count c.number)
      if missing.isEmpty then ([], { s with head := some c })
      else (missing, s)

/-- The `offset`th ancestor of a block through the stored parent links
(`ChainStore::ancestor_block`, store.rs 1379-1388, restricted to resident
walks). -/
def ancestorAt (blocks : List Block) (b : Block) : Nat → Option Block
  | 0 => some b
  | n + 1 => (ancestorAt blocks b n).bind fun a => lookupBlock blocks a.parentHash

/-- The buffered ops of a key applied over a snapshot value: the
block-buffer op first, the handler-buffer op on top (the apply chain of
`EntityCache::get`, store.rs 1654-1660). -/
def applyBuffered (s : EntityCache) (k : EntityKey) (v : Option Entity) :
    Option Entity :=
  let v1 :=
    match s.updates.get k with
    | some op => op.apply_to v
    | none => v
  match s.handler_updates.get k with
  | some op => op.apply_to v1
  | none => v1

/-! ## Theorems -/

/-! ### Lookup lemmas for entity operations -/

theorem Entity.lookupAttr_eraseAttr (e : Entity) (k k' : Attribute) :
    (e.eraseAttr k).lookupAttr k' = if k' = k then none else e.lookupAttr k' := by
  induction e with
  | nil => simp [Entity.eraseAttr, Entity.lookupAttr]
  | cons hd t ih =>
    obtain ⟨a, v⟩ := hd
    by_cases h1 : a = k
    · subst h1
      by_cases h2 : k' = a
      · subst h2; simp [Entity.eraseAttr, Entity.lookupAttr, ih]
      · have h2' : ¬ a = k' := fun h => h2 h.symm
        simp [Entity.eraseAttr, Entity.lookupAttr, ih, h2, h2']
    · by_cases h3 : a = k'
      · subst h3
        have h2 : ¬ a = k := h1
        simp [Entity.eraseAttr, Entity.lookupAttr, ih, h1, h2]
      · simp [Entity.eraseAttr, Entity.lookupAttr, ih, h1, h3]

theorem Entity.lookupAttr_insertAttr (e : Entity) (k k' : Attribute) (v : Value) :
    (e.insertAttr k v).lookupAttr k' = if k' = k then some v else e.lookupAttr k' := by
  by_cases h : k' = k
  · subst h; simp [Entity.insertAttr, Entity.lookupAttr]
  · have h' : ¬ k = k' := fun hh => h hh.symm
    simp [Entity.insertAttr, Entity.lookupAttr, h, h', Entity.lookupAttr_eraseAttr]

theorem Entity.lookupAttr_eq_none_of_not_mem (u : Entity) (k : Attribute)
    (h : k ∉ u.keys) : u.lookupAttr k = none := by
  induction u with
  | nil => rfl
  | cons hd t ih =>
    obtain ⟨a, v⟩ := hd
    simp only [Entity.keys, List.map_cons, List.mem_cons] at h
    push_neg at h
    have ha : ¬ a = k := fun hh => h.1 hh.symm
    simp only [Entity.lookupAttr, if_neg ha]
    exact ih (by simpa [Entity.keys] using h.2)

/-- Pointwise behaviour of `merge` when the update has no duplicate
attributes: the update's binding wins, otherwise the base's. -/
theorem Entity.lookupAttr_merge (e update : Entity) (k : Attribute)
    (h : update.keys.Nodup) :
    (e.merge update).lookupAttr k = (update.lookupAttr k).or (e.lookupAttr k) := by
  induction update generalizing e with
  | nil => simp [Entity.merge, Entity.lookupAttr]
  | cons hd t ih =>
    obtain ⟨a, v⟩ := hd
    simp only [Entity.keys, List.map_cons, List.nodup_cons] at h
    have step : e.merge ((a, v) :: t) = (e.insertAttr a v).merge t := rfl
    rw [step, ih _ (by simpa [Entity.keys] using h.2)]
    by_cases hk : k = a
    · subst hk
      have hnone : Entity.lookupAttr t k = none :=
        Entity.lookupAttr_eq_none_of_not_mem t k (by simpa [Entity.keys] using h.1)
      simp [hnone, Entity.lookupAttr, Entity.lookupAttr_insertAttr,
        Entity.lookupAttr_eraseAttr]
    · have h1 : ¬ a = k := fun hh => hk hh.symm
      simp [Entity.lookupAttr, Entity.lookupAttr_insertAttr,
        Entity.lookupAttr_eraseAttr, hk, h1]

/-- Pointwise behaviour of `merge_remove_null_fields` when the update has no
duplicate attributes: a null binding deletes, any other binding wins,
attributes absent from the update keep the base's value. -/
theorem Entity.lookupAttr_merge_remove_null_fields (e update : Entity) (k : Attribute)
    (h : update.keys.Nodup) :
    (e.merge_remove_null_fields update).lookupAttr k =
      if update.lookupAttr k = some Value.null then none
      else (update.lookupAttr k).or (e.lookupAttr k) := by
  induction update generalizing e with
  | nil => simp [Entity.merge_remove_null_fields, Entity.lookupAttr]
  | cons hd t ih =>
    obtain ⟨a, v⟩ := hd
    simp only [Entity.keys, List.map_cons, List.nodup_cons] at h
    have step : e.merge_remove_null_fields ((a, v) :: t) =
        (if v = Value.null then e.eraseAttr a else e.insertAttr a v).merge_remove_null_fields t :=
      rfl
    rw [step, ih _ (by simpa [Entity.keys] using h.2)]
    by_cases hk : k = a
    · subst hk
      have hnone : Entity.lookupAttr t k = none :=
        Entity.lookupAttr_eq_none_of_not_mem t k (by simpa [Entity.keys] using h.1)
      by_cases hv : v = Value.null
      · subst hv
        simp [hnone, Entity.lookupAttr, Entity.lookupAttr_eraseAttr]
      · simp [hnone, Entity.lookupAttr, Entity.lookupAttr_insertAttr,
          Entity.lookupAttr_eraseAttr, hv]
    · have h1 : ¬ a = k := fun hh => hk hh.symm
      by_cases hv : v = Value.null
      · subst hv
        simp [Entity.lookupAttr, Entity.lookupAttr_eraseAttr, hk, h1]
      · simp [Entity.lookupAttr, Entity.lookupAttr_insertAttr,
          Entity.lookupAttr_eraseAttr, hk, h1, hv]

/-- `eqv` decides value equality of entities: it is `true` exactly when
every attribute looks up the same on both sides. -/
theorem Entity.eqv_iff (a b : Entity) :
    a.eqv b = true ↔ ∀ k, a.lookupAttr k = b.lookupAttr k := by
  constructor
  · intro h k
    by_cases hk : k ∈ a.keys ++ b.keys
    · simp only [Entity.eqv, List.all_eq_true] at h
      simpa using h k (by simpa [Entity.keys] using hk)
    · simp only [List.mem_append, Entity.keys] at hk
      push_neg at hk
      rw [Entity.lookupAttr_eq_none_of_not_mem a k (by simpa [Entity.keys] using hk.1),
        Entity.lookupAttr_eq_none_of_not_mem b k (by simpa [Entity.keys] using hk.2)]
  · intro h
    simp only [Entity.eqv, List.all_eq_true]
    intro k _
    simpa using h k

theorem KMap.get_erase {ν : Type} (m : KMap ν) (k k' : EntityKey) :
    (m.erase k).get k' = if k' = k then none else m.get k' := by
  induction m with
  | nil => simp [KMap.erase, KMap.get]
  | cons hd t ih =>
    obtain ⟨a, v⟩ := hd
    by_cases h1 : a = k
    · subst h1
      by_cases h2 : k' = a
      · subst h2; simp [KMap.erase, KMap.get, ih]
      · have h2' : ¬ a = k' := fun h => h2 h.symm
        simp [KMap.erase, KMap.get, ih, h2, h2']
    · by_cases h3 : a = k'
      · subst h3
        have h2 : ¬ a = k := h1
        simp [KMap.erase, KMap.get, ih, h1, h2]
      · simp [KMap.erase, KMap.get, ih, h1, h3]

theorem KMap.get_insert {ν : Type} (m : KMap ν) (k k' : EntityKey) (v : ν) :
    (m.insert k v).get k' = if k' = k then some v else m.get k' := by
  by_cases h : k' = k
  · subst h; simp [KMap.insert, KMap.get]
  · have h' : ¬ k = k' := fun hh => h hh.symm
    simp [KMap.insert, KMap.get, h, h', KMap.get_erase]

theorem KMap.get_eq_none_of_not_mem {ν : Type} (m : KMap ν) (k : EntityKey)
    (h : k ∉ m.keys) : m.get k = none := by
  induction m with
  | nil => rfl
  | cons hd t ih =>
    obtain ⟨a, v⟩ := hd
    simp only [KMap.keys, List.map_cons, List.mem_cons] at h
    push_neg at h
    have ha : ¬ a = k := fun hh => h.1 hh.symm
    simp only [KMap.get, if_neg ha]
    exact ih (by simpa [KMap.keys] using h.2)

/-! ### Planner fold lemmas -/

theorem planStep_fst (c : Cache) (k : EntityKey) (op : EntityOp) :
    (planStep c k op).1 = specPlannedMod k ((c.get k).join) op := by
  cases op <;> rcases hc : c.get k with _ | _ | e <;>
    simp [planStep, specPlannedMod, hc, Option.join]

theorem planStep_snd_get_self (c : Cache) (k : EntityKey) (op : EntityOp) :
    ((planStep c k op).2).get k = specEntry ((c.get k).join) op := by
  cases op <;> rcases hc : c.get k with _ | _ | e <;>
    simp [planStep, specEntry, specPost, hc, Option.join,
      KMap.get_insert, KMap.get_erase]

theorem planStep_snd_get_ne (c : Cache) (k k' : EntityKey) (op : EntityOp)
    (hne : k' ≠ k) :
    ((planStep c k op).2).get k' = c.get k' := by
  cases op <;> rcases hc : c.get k with _ | _ | e <;>
    simp [planStep, hc, Option.join, KMap.get_insert, KMap.get_erase, hne]

theorem specPlannedMod_key (k : EntityKey) (cur : Option Entity)
    (op : EntityOp) (m : EntityModification)
    (hm : m ∈ (specPlannedMod k cur op).toList) : m.entity_key = k := by
  rcases op with _ | u | u <;> rcases cur with _ | c
  · simp [specPlannedMod] at hm
  · simp [specPlannedMod] at hm
    subst hm; rfl
  · simp [specPlannedMod] at hm
    subst hm; rfl
  · by_cases hq : c.eqv (c.merge_remove_null_fields u) = true
    · simp [specPlannedMod, hq] at hm
    · simp [specPlannedMod, hq] at hm
      subst hm; rfl
  · simp [specPlannedMod] at hm
    subst hm; rfl
  · by_cases hq : c.eqv u = true
    · simp [specPlannedMod, hq] at hm
    · simp [specPlannedMod, hq] at hm
      subst hm; rfl

theorem runPlan_get_not_mem (updates : KMap EntityOp) (c : Cache)
    (k : EntityKey) (h : k ∉ updates.keys) :
    ((runPlan updates c).2).get k = c.get k := by
  induction updates generalizing c with
  | nil => rfl
  | cons hd rest ih =>
    obtain ⟨k0, op0⟩ := hd
    simp only [KMap.keys, List.map_cons, List.mem_cons] at h
    push_neg at h
    show ((runPlan rest (planStep c k0 op0).2).2).get k = c.get k
    rw [ih _ (by simpa [KMap.keys] using h.2)]
    exact planStep_snd_get_ne c k0 k op0 h.1

theorem runPlan_mods_keys (updates : KMap EntityOp) (c : Cache)
    (m : EntityModification) (hm : m ∈ (runPlan updates c).1) :
    m.entity_key ∈ updates.keys := by
  induction updates generalizing c with
  | nil => simp [runPlan] at hm
  | cons hd rest ih =>
    obtain ⟨k0, op0⟩ := hd
    have hm' : m ∈ (planStep c k0 op0).1.toList ++
        (runPlan rest (planStep c k0 op0).2).1 := hm
    rw [List.mem_append] at hm'
    rcases hm' with h1 | h2
    · rw [planStep_fst] at h1
      have := specPlannedMod_key k0 ((c.get k0).join) op0 m h1
      simp [KMap.keys, this]
    · have := ih (planStep c k0 op0).2 h2
      simp [KMap.keys] at this ⊢
      exact Or.inr this

theorem runPlan_length (updates : KMap EntityOp) (c : Cache) :
    (runPlan updates c).1.length ≤ updates.length := by
  induction updates generalizing c with
  | nil => simp [runPlan]
  | cons hd rest ih =>
    obtain ⟨k0, op0⟩ := hd
    show ((planStep c k0 op0).1.toList ++
        (runPlan rest (planStep c k0 op0).2).1).length ≤ rest.length + 1
    rw [List.length_append]
    have h1 : (planStep c k0 op0).1.toList.length ≤ 1 := by
      cases (planStep c k0 op0).1 <;> simp
    have h2 := ih (planStep c k0 op0).2
    omega

/-- The central planner characterisation: with distinct buffered keys, the
modifications (and the final cache entry) for each buffered key are exactly
the §4.3 table applied to the key's snapshot at planning time. -/
theorem runPlan_of_mem (updates : KMap EntityOp) (c : Cache)
    (k : EntityKey) (op : EntityOp)
    (hnodup : updates.keys.Nodup) (hmem : (k, op) ∈ updates) :
    ((runPlan updates c).1.filter (fun m => decide (m.entity_key = k))) =
      (specPlannedMod k ((c.get k).join) op).toList ∧
    ((runPlan updates c).2).get k = specEntry ((c.get k).join) op := by
  revert hnodup hmem
  induction updates generalizing c with
  | nil =>
    intro _ hmem
    simp at hmem
  | cons hd rest ih =>
    intro hnodup hmem
    obtain ⟨k0, op0⟩ := hd
    simp only [KMap.keys, List.map_cons, List.nodup_cons] at hnodup
    have hrun : runPlan ((k0, op0) :: rest) c =
        ((planStep c k0 op0).1.toList ++ (runPlan rest (planStep c k0 op0).2).1,
         (runPlan rest (planStep c k0 op0).2).2) := rfl
    rcases List.mem_cons.mp hmem with heq | hrest
    · rw [Prod.mk.injEq] at heq
      obtain ⟨hk, hop⟩ := heq
      subst hk
      subst hop
      rw [hrun]
      constructor
      · show ((planStep c k op).1.toList ++
            (runPlan rest (planStep c k op).2).1).filter
            (fun m => decide (m.entity_key = k)) = _
        rw [List.filter_append]
        have h1 : (planStep c k op).1.toList.filter
            (fun m => decide (m.entity_key = k)) = (planStep c k op).1.toList := by
          apply List.filter_eq_self.mpr
          intro m hm
          rw [planStep_fst] at hm
          simp [specPlannedMod_key k ((c.get k).join) op m hm]
        have h2 : ((runPlan rest (planStep c k op).2).1).filter
            (fun m => decide (m.entity_key = k)) = [] := by
          apply List.filter_eq_nil_iff.mpr
          intro m hm
          have hkeys := runPlan_mods_keys rest _ m hm
          simp only [decide_eq_true_eq]
          intro hkey
          exact hnodup.1 (hkey ▸ hkeys)
        rw [h1, h2, List.append_nil, planStep_fst]
      · show ((runPlan rest (planStep c k op).2).2).get k = _
        rw [runPlan_get_not_mem rest _ k hnodup.1]
        exact planStep_snd_get_self c k op
    · have hkmem : k ∈ KMap.keys rest := by
        simpa [KMap.keys] using List.mem_map_of_mem Prod.fst hrest
      have hkne : k ≠ k0 := fun h => hnodup.1 (h ▸ hkmem)
      have ihres := ih (planStep c k0 op0).2 hnodup.2 hrest
      rw [planStep_snd_get_ne c k0 k op0 hkne] at ihres
      rw [hrun]
      constructor
      · show ((planStep c k0 op0).1.toList ++
            (runPlan rest (planStep c k0 op0).2).1).filter
            (fun m => decide (m.entity_key = k)) = _
        rw [List.filter_append]
        have h1 : (planStep c k0 op0).1.toList.filter
            (fun m => decide (m.entity_key = k)) = [] := by
          apply List.filter_eq_nil_iff.mpr
          intro m hm
          rw [planStep_fst] at hm
          have hmk := specPlannedMod_key k0 ((c.get k0).join) op0 m hm
          simp only [decide_eq_true_eq]
          intro hkey
          exact hkne (by rw [← hkey, hmk])
        rw [h1, List.nil_append]
        exact ihres.1
      · exact ihres.2

/-- With distinct buffered keys, each key is the subject of at most one
modification. -/
theorem runPlan_nodup_keys (updates : KMap EntityOp) (c : Cache)
    (hnodup : updates.keys.Nodup) :
    ((runPlan updates c).1.map EntityModification.entity_key).Nodup := by
  revert hnodup
  induction updates generalizing c with
  | nil =>
    intro _
    simp [runPlan]
  | cons hd rest ih =>
    intro hnodup
    obtain ⟨k0, op0⟩ := hd
    simp only [KMap.keys, List.map_cons, List.nodup_cons] at hnodup
    show (((planStep c k0 op0).1.toList ++
        (runPlan rest (planStep c k0 op0).2).1).map
        EntityModification.entity_key).Nodup
    rw [List.map_append]
    apply List.Nodup.append
    · cases h : (planStep c k0 op0).1 <;> simp
    · exact ih _ hnodup.2
    · intro a ha hb
      simp only [List.mem_map] at ha hb
      obtain ⟨m1, hm1, hk1⟩ := ha
      obtain ⟨m2, hm2, hk2⟩ := hb
      rw [planStep_fst] at hm1
      have e1 := specPlannedMod_key k0 ((c.get k0).join) op0 m1 hm1
      have e2 := runPlan_mods_keys rest _ m2 hm2
      apply hnodup.1
      rw [← hk1, e1] at hk2
      rw [hk2] at e2
      exact e2

/-! ### Fetch lemmas -/

theorem fetchStep_get_ne (c : Cache) (store : EntityKey → Option Entity)
    (k0 k : EntityKey) (h : k ≠ k0) :
    (fetchStep c store k0).get k = c.get k := by
  unfold fetchStep
  by_cases hs : (c.get k0).isSome
  · simp [hs]
  · cases hst : store k0 <;> simp [hs, hst, KMap.get_insert, h]

theorem fetchStep_get_self (c : Cache) (store : EntityKey → Option Entity)
    (k0 : EntityKey) :
    ((fetchStep c store k0).get k0).join = (c.get k0).getD (store k0) := by
  unfold fetchStep
  rcases hs : c.get k0 with _ | v
  · cases hst : store k0 <;> simp [hs, hst, KMap.get_insert, Option.join]
  · simp [hs, Option.join]

theorem fetchMissing_get_not_mem (updates : KMap EntityOp) (c : Cache)
    (store : EntityKey → Option Entity) (k : EntityKey)
    (h : k ∉ updates.keys) :
    (fetchMissing updates c store).get k = c.get k := by
  induction updates generalizing c with
  | nil => rfl
  | cons hd rest ih =>
    simp only [KMap.keys, List.map_cons, List.mem_cons] at h
    push_neg at h
    show (fetchMissing rest (fetchStep c store hd.1) store).get k = c.get k
    rw [ih _ (by simpa [KMap.keys] using h.2)]
    exact fetchStep_get_ne c store hd.1 k h.1

/-- After the missing-snapshot fetch, the (flattened) snapshot of every
buffered key is the cached value if one was cached, and the store's value
otherwise. -/
theorem fetchMissing_get_of_mem (updates : KMap EntityOp) (c : Cache)
    (store : EntityKey → Option Entity) (k : EntityKey)
    (hnodup : updates.keys.Nodup) (hmem : k ∈ updates.keys) :
    ((fetchMissing updates c store).get k).join = (c.get k).getD (store k) := by
  revert hnodup hmem
  induction updates generalizing c with
  | nil =>
    intro _ hmem
    simp [KMap.keys] at hmem
  | cons hd rest ih =>
    intro hnodup hmem
    simp only [KMap.keys, List.map_cons, List.nodup_cons] at hnodup
    simp only [KMap.keys, List.map_cons, List.mem_cons] at hmem
    rcases hmem with heq | hmem
    · subst heq
      show ((fetchMissing rest (fetchStep c store hd.1) store).get hd.1).join = _
      rw [fetchMissing_get_not_mem rest _ store hd.1
        (by simpa [KMap.keys] using hnodup.1)]
      exact fetchStep_get_self c store hd.1
    · have hne : k ≠ hd.1 := fun h => hnodup.1 (h ▸ hmem)
      show ((fetchMissing rest (fetchStep c store hd.1) store).get k).join = _
      rw [ih _ hnodup.2 hmem, fetchStep_get_ne c store hd.1 k hne]

theorem specEntry_join (cur : Option Entity) (op : EntityOp) :
    (specEntry cur op).join = specPost cur op := by
  cases op <;> cases cur <;> simp [specEntry, specPost, Option.join]

/-- The full per-key characterisation of `as_modifications`: for every
buffered `(key, op)` the emitted modification is the §4.3 table applied to
the snapshot (the cache's entry if one exists, the store's value otherwise),
and the snapshot cache afterwards holds the post-modification value. -/
theorem as_modifications_of_mem (s : EntityCache)
    (store : EntityKey → Option Entity) (k : EntityKey) (op : EntityOp)
    (hnodup : s.updates.keys.Nodup) (hmem : (k, op) ∈ s.updates) :
    ((s.as_modifications store).1.filter (fun m => decide (m.entity_key = k))) =
      (specPlannedMod k ((s.current.get k).getD (store k)) op).toList ∧
    (((s.as_modifications store).2).get k).join =
      specPost ((s.current.get k).getD (store k)) op := by
  have hkmem : k ∈ s.updates.keys := by
    simpa [KMap.keys] using List.mem_map_of_mem Prod.fst hmem
  have hsnap := fetchMissing_get_of_mem s.updates s.current store k hnodup hkmem
  have hrun := runPlan_of_mem s.updates
    (fetchMissing s.updates s.current store) k op hnodup hmem
  rw [hsnap] at hrun
  refine ⟨hrun.1, ?_⟩
  show (((runPlan s.updates (fetchMissing s.updates s.current store)).2).get k).join = _
  rw [hrun.2, specEntry_join]

/-! ### Throttler lemmas -/

theorem pendingChanges_foldl_accum (evs : List StoreEvent)
    (p : Option StoreEvent) :
    pendingChanges (evs.foldl StoreEvent.accum p) =
      pendingChanges p ++ evsChanges evs := by
  induction evs generalizing p with
  | nil => simp [evsChanges]
  | cons e t ih =>
    show pendingChanges (t.foldl StoreEvent.accum (StoreEvent.accum p e)) = _
    rw [ih]
    cases p <;> simp [StoreEvent.accum, pendingChanges, evsChanges]

/-- One not-synced poll conserves changes: what is emitted plus what stays
pending is what was pending plus what the source yielded. -/
theorem pollStep_changes (s : ThrottleState) (i : PollIn)
    (h : s.hadErr = false) :
    outChanges (pollStep s i).1 ++ pendingChanges (pollStep s i).2.pending =
      pendingChanges s.pending ++ evsChanges i.evs := by
  rw [← pendingChanges_foldl_accum i.evs s.pending]
  unfold pollStep
  rw [h]
  simp only [Bool.false_eq_true, if_false]
  rcases hfold : i.evs.foldl StoreEvent.accum s.pending with _ | ev
  · cases hterm : i.term <;>
      simp [hfold, outChanges, pendingChanges]
  · cases hterm : i.term <;>
      by_cases htf : i.timerFired <;>
      simp [hfold, htf, outChanges, pendingChanges]

theorem pollStep_hadErr_notReady (s : ThrottleState) (i : PollIn)
    (h : s.hadErr = false) (ht : i.term = .notReady) :
    (pollStep s i).2.hadErr = false := by
  unfold pollStep
  rw [h, ht]
  simp only [Bool.false_eq_true, if_false]
  by_cases hs : i.timerFired ∧ (i.evs.foldl StoreEvent.accum s.pending).isSome
  · simp [hs]
  · simp [hs, h]

theorem emittedChanges_cons (o : PollOut) (outs : List PollOut) :
    emittedChanges (o :: outs) = outChanges o ++ emittedChanges outs := rfl

theorem sourcedChanges_cons (i : PollIn) (ins : List PollIn) :
    sourcedChanges (i :: ins) = evsChanges i.evs ++ sourcedChanges ins := rfl

theorem sourcedChanges_append (a b : List PollIn) :
    sourcedChanges (a ++ b) = sourcedChanges a ++ sourcedChanges b := by
  induction a with
  | nil => rfl
  | cons i t ih => simp [sourcedChanges_cons, ih]

theorem runPolls_append (s : ThrottleState) (a b : List PollIn) :
    runPolls s (a ++ b) =
      ((runPolls s a).1 ++ (runPolls (runPolls s a).2 b).1,
       (runPolls (runPolls s a).2 b).2) := by
  induction a generalizing s with
  | nil => rfl
  | cons i t ih =>
    show ((pollStep s i).1 :: (runPolls (pollStep s i).2 (t ++ b)).1,
        (runPolls (pollStep s i).2 (t ++ b)).2) = _
    rw [ih (pollStep s i).2]
    rfl

/-- Conservation over a run of not-ready polls: emitted plus still-pending
changes equal initially-pending plus sourced changes, and no error state is
entered. -/
theorem runPolls_changes (ins : List PollIn) (s : ThrottleState)
    (h : s.hadErr = false) (hterm : ∀ i ∈ ins, i.term = .notReady) :
    emittedChanges (runPolls s ins).1 ++
        pendingChanges (runPolls s ins).2.pending =
      pendingChanges s.pending ++ sourcedChanges ins ∧
    (runPolls s ins).2.hadErr = false := by
  induction ins generalizing s with
  | nil => exact ⟨by simp [runPolls, emittedChanges, sourcedChanges], h⟩
  | cons i t ih =>
    have hti : i.term = .notReady := hterm i (by simp)
    have h1 : (pollStep s i).2.hadErr = false := pollStep_hadErr_notReady s i h hti
    have iht := ih (pollStep s i).2 h1 (fun j hj => hterm j (by simp [hj]))
    constructor
    · show emittedChanges ((pollStep s i).1 :: (runPolls (pollStep s i).2 t).1) ++
          pendingChanges (runPolls (pollStep s i).2 t).2.pending = _
      rw [emittedChanges_cons, List.append_assoc, iht.1, sourcedChanges_cons,
        ← List.append_assoc, pollStep_changes s i h, List.append_assoc]
    · exact iht.2

/-! ### Chain walk lemmas -/

theorem ancestorAt_shift (blocks : List Block) (b p : Block)
    (hp : lookupBlock blocks b.parentHash = some p) (i : Nat) :
    ancestorAt blocks b (i + 1) = ancestorAt blocks p i := by
  induction i with
  | zero => simp [ancestorAt, hp]
  | succ j ih =>
    show (ancestorAt blocks b (j + 1)).bind _ = (ancestorAt blocks p j).bind _
    rw [ih]

/-- The parent walk finds no missing block exactly when every ancestor up
to the walked depth is resident. -/
theorem walkMissing_eq_nil_iff (blocks : List Block) (b : Block) (n : Nat) :
    walkMissing blocks b n = [] ↔
      ∀ i, i ≤ n → (ancestorAt blocks b i).isSome := by
  induction n generalizing b with
  | zero =>
    constructor
    · intro _ i hi
      interval_cases i
      simp [ancestorAt]
    · intro _
      rfl
  | succ m ih =>
    cases hp : lookupBlock blocks b.parentHash with
    | none =>
      simp only [walkMissing, hp]
      constructor
      · intro hcontra; simp at hcontra
      · intro hres
        have h1 := hres 1 (by omega)
        simp [ancestorAt, hp] at h1
    | some p =>
      simp only [walkMissing, hp]
      rw [ih p]
      constructor
      · intro hres i hi
        cases i with
        | zero => simp [ancestorAt]
        | succ j =>
          rw [ancestorAt_shift blocks b p hp j]
          exact hres j (by omega)
      · intro hres i hi
        have := hres (i + 1) (by omega)
        rw [ancestorAt_shift blocks b p hp i] at this
        exact this

theorem emittedChanges_append (a b : List PollOut) :
    emittedChanges (a ++ b) = emittedChanges a ++ emittedChanges b := by
  induction a with
  | nil => rfl
  | cons o t ih => simp [emittedChanges_cons, ih]

theorem pollStep_pending_ended (s : ThrottleState) (i : PollIn)
    (h : s.hadErr = false) (ht : i.term = .ended) :
    (pollStep s i).2.pending = none := by
  unfold pollStep
  rw [h, ht]
  simp

/-! ## Claim theorems -/

/-- C1 is false as stated: `EntityOp::accumulate` merges an `Update` into a
current `Update` with plain `merge` (store.rs 1562), not
`merge_remove_null_fields` — a null attribute of the incoming update is kept
where the claimed law would drop it. -/
theorem C1_accumulate_counterexample :
    EntityOp.accumulate (.update []) (.update [("a", Value.null)]) =
      .update [("a", Value.null)] ∧
    Entity.merge_remove_null_fields [] [("a", Value.null)] = ([] : Entity) ∧
    EntityOp.accumulate (.update []) (.update [("a", Value.null)]) ≠
      .update (Entity.merge_remove_null_fields [] [("a", Value.null)]) := by
  refine ⟨rfl, rfl, ?_⟩
  decide

/-- C1 (amended): `EntityOp::accumulate` follows the accumulation law with
`merge` taken to be the plain overwriting `merge` (nulls included): `Remove`
and `Overwrite(u)` ignore the current op; `Update(u)` promotes `Remove` to
`Overwrite(u)`, merges into `Update(c)` giving `Update(merge(c,u))` and into
`Overwrite(c)` giving `Overwrite(merge(c,u))`, where `merge(c,u)` binds every
attribute of `u` (null or not) over `c`. -/
theorem C1_accumulate_law (c u : Entity) (hu : u.keys.Nodup) :
    (∀ cur : EntityOp, cur.accumulate .remove = .remove) ∧
    (∀ cur : EntityOp, cur.accumulate (.overwrite u) = .overwrite u) ∧
    EntityOp.accumulate .remove (.update u) = .overwrite u ∧
    EntityOp.accumulate (.update c) (.update u) = .update (c.merge u) ∧
    EntityOp.accumulate (.overwrite c) (.update u) = .overwrite (c.merge u) ∧
    (∀ k, (c.merge u).lookupAttr k = (u.lookupAttr k).or (c.lookupAttr k)) := by
  refine ⟨?_, ?_, rfl, rfl, rfl, ?_⟩
  · intro cur; cases cur <;> rfl
  · intro cur; cases cur <;> rfl
  · intro k; exact Entity.lookupAttr_merge c u k hu

theorem C1_accumulate_law_witness :
    (Entity.keys [("b", Value.null)]).Nodup ∧
    EntityOp.accumulate (.update [("a", Value.scalar (.int 1))])
        (.update [("b", Value.null)]) =
      .update (Entity.merge [("a", Value.scalar (.int 1))] [("b", Value.null)]) :=
  ⟨by decide,
   (C1_accumulate_law [("a", Value.scalar (.int 1))] [("b", Value.null)]
      (by decide)).2.2.2.1⟩

/-- C9: `and_maybe` flattens nested `And`s: with `none` it returns the
filter unchanged; when either side is an `And` the other side's conjuncts
are appended to its list; when neither is, the result is `And [f1, f2]`. -/
theorem C9_and_maybe_flatten :
    (∀ f : EntityFilter, f.and_maybe none = f) ∧
    (∀ (fs1 fs2 : List EntityFilter),
        (EntityFilter.and fs1).and_maybe (some (.and fs2)) =
          .and (fs1 ++ fs2)) ∧
    (∀ (fs1 : List EntityFilter) (f2 : EntityFilter),
        (∀ gs, f2 ≠ .and gs) →
        (EntityFilter.and fs1).and_maybe (some f2) = .and (fs1 ++ [f2])) ∧
    (∀ (f1 : EntityFilter) (fs2 : List EntityFilter),
        (∀ gs, f1 ≠ .and gs) →
        f1.and_maybe (some (.and fs2)) = .and (fs2 ++ [f1])) ∧
    (∀ (f1 f2 : EntityFilter),
        (∀ gs, f1 ≠ .and gs) → (∀ gs, f2 ≠ .and gs) →
        f1.and_maybe (some f2) = .and [f1, f2]) := by
  refine ⟨?_, ?_, ?_, ?_, ?_⟩
  · intro f
    rfl
  · intro fs1 fs2
    rfl
  · intro fs1 f2 h
    cases f2 <;> first | exact absurd rfl (h _) | rfl
  · intro f1 fs2 h
    cases f1 <;> first | exact absurd rfl (h _) | rfl
  · intro f1 f2 h1 h2
    cases f1 <;>
      first
        | exact absurd rfl (h1 _)
        | (cases f2 <;> first | exact absurd rfl (h2 _) | rfl)

theorem C9_and_maybe_flatten_witness :
    (EntityFilter.equal "parent" (Value.scalar (.str "p1"))).and_maybe
        (some (.equal "x" (Value.scalar (.int 1)))) =
      .and [.equal "parent" (Value.scalar (.str "p1")),
            .equal "x" (Value.scalar (.int 1))] :=
  C9_and_maybe_flatten.2.2.2.2 _ _ (fun gs h => EntityFilter.noConfusion h)
    (fun gs h => EntityFilter.noConfusion h)

/-- C5: `simplify` rewrites a query whose collection is a `Window` of
exactly one window with exactly one parent id and a `Direct` link into an
`All [child_type]` query whose filter is the window conjunct (`Equal` for a
scalar attribute, `Contains` for a list attribute) anded with any existing
filter; every other query is returned unchanged. -/
theorem C5_simplify (q : EntityQuery) :
    (∀ ct id name mult,
        q.collection = .window [⟨ct, [id], .direct (.scalar name) mult⟩] →
        q.simplify = { q with
          filter := some ((EntityFilter.equal name
            (Value.scalar (.str id))).and_maybe q.filter),
          collection := .all [ct] }) ∧
    (∀ ct id name mult,
        q.collection = .window [⟨ct, [id], .direct (.list name) mult⟩] →
        q.simplify = { q with
          filter := some ((EntityFilter.contains name
            (Value.list [.str id])).and_maybe q.filter),
          collection := .all [ct] }) ∧
    ((∀ ct id attr mult,
        q.collection ≠ .window [⟨ct, [id], .direct attr mult⟩]) →
      q.simplify = q) := by
  obtain ⟨sid, blk, coll, filt, ord, rng, qid⟩ := q
  refine ⟨?_, ?_, ?_⟩
  · intro ct id name mult h
    simp only at h
    subst h
    rfl
  · intro ct id name mult h
    simp only at h
    subst h
    rfl
  · intro h
    rcases coll with types | ws
    · rfl
    · rcases ws with _ | ⟨w, rest⟩
      · rfl
      · rcases rest with _ | ⟨w2, rest2⟩
        · obtain ⟨ct, ids, link⟩ := w
          rcases ids with _ | ⟨id, idrest⟩
          · rfl
          · rcases idrest with _ | ⟨x, y⟩
            · rcases link with ⟨attr, mult⟩ | pl
              · exact absurd rfl (h ct id attr mult)
              · rfl
            · rfl
        · rfl

theorem C5_simplify_witness :
    (EntityQuery.mk "S" 0
        (.window [⟨"T", ["p1"], .direct (.scalar "parent") .single⟩])
        (some (.equal "x" (Value.scalar (.int 1)))) .default ⟨some 100, 0⟩
        none).simplify =
      EntityQuery.mk "S" 0 (.all ["T"])
        (some (.and [.equal "parent" (Value.scalar (.str "p1")),
                     .equal "x" (Value.scalar (.int 1))]))
        .default ⟨some 100, 0⟩ none :=
  (C5_simplify _).1 "T" "p1" "parent" .single rfl

/-- C2: for every key in the block buffer, `as_modifications` combines the
accumulated op with the snapshot (the cache's entry when one exists, the
store's value otherwise) exactly per the §4.3 table (`specPlannedMod`), with
"differs" being value equality, and re-caches the post-modification value
(`specPost`) for the key. -/
theorem C2_planner_table (s : EntityCache) (store : EntityKey → Option Entity)
    (k : EntityKey) (op : EntityOp)
    (hnodup : s.updates.keys.Nodup) (hmem : (k, op) ∈ s.updates) :
    ((s.as_modifications store).1.filter
        (fun m => decide (m.entity_key = k))) =
      (specPlannedMod k ((s.current.get k).getD (store k)) op).toList ∧
    (((s.as_modifications store).2).get k).join =
      specPost ((s.current.get k).getD (store k)) op :=
  as_modifications_of_mem s store k op hnodup hmem

theorem C2_planner_table_witness :
    ((KMap.keys [(⟨"d", EntityType.data "T", "i"⟩,
        EntityOp.update [("a", Value.null), ("b", Value.scalar (.int 2))])]).Nodup) ∧
    (((⟨[], [(⟨"d", EntityType.data "T", "i"⟩,
          EntityOp.update [("a", Value.null), ("b", Value.scalar (.int 2))])],
        [], false⟩ : EntityCache).as_modifications (fun _ => none)).1.filter
        (fun m => decide (m.entity_key = ⟨"d", EntityType.data "T", "i"⟩))) =
      [.insert ⟨"d", EntityType.data "T", "i"⟩ [("b", Value.scalar (.int 2))]] :=
  ⟨by decide,
   (C2_planner_table
      ⟨[], [(⟨"d", EntityType.data "T", "i"⟩,
          EntityOp.update [("a", Value.null), ("b", Value.scalar (.int 2))])],
        [], false⟩
      (fun _ => none) ⟨"d", EntityType.data "T", "i"⟩
      (EntityOp.update [("a", Value.null), ("b", Value.scalar (.int 2))])
      (by decide) (by simp)).1⟩

/-- C6: with the block buffer's keys distinct (they come from a `HashMap`),
`as_modifications` emits at most one modification per key — its length is
bounded by the number of distinct keys touched and the emitted keys are
distinct — and emits nothing for a key whose op leaves the stored state
unchanged: an `Update` whose null-removing merge equals the snapshot, an
`Overwrite` value-equal to the snapshot, or a `Remove` of a key absent from
the store. -/
theorem C6_minimal_modifications (s : EntityCache)
    (store : EntityKey → Option Entity) (hnodup : s.updates.keys.Nodup) :
    (s.as_modifications store).1.length ≤ s.updates.length ∧
    ((s.as_modifications store).1.map EntityModification.entity_key).Nodup ∧
    (∀ k cur u, (k, EntityOp.update u) ∈ s.updates →
        (s.current.get k).getD (store k) = some cur →
        cur.eqv (cur.merge_remove_null_fields u) = true →
        ∀ m ∈ (s.as_modifications store).1, m.entity_key ≠ k) ∧
    (∀ k cur u, (k, EntityOp.overwrite u) ∈ s.updates →
        (s.current.get k).getD (store k) = some cur →
        cur.eqv u = true →
        ∀ m ∈ (s.as_modifications store).1, m.entity_key ≠ k) ∧
    (∀ k, (k, EntityOp.remove) ∈ s.updates →
        (s.current.get k).getD (store k) = none →
        ∀ m ∈ (s.as_modifications store).1, m.entity_key ≠ k) := by
  refine ⟨runPlan_length s.updates _, runPlan_nodup_keys s.updates _ hnodup,
    ?_, ?_, ?_⟩
  · intro k cur u hmem hsnap heqv m hm hkey
    have hc := (as_modifications_of_mem s store k (.update u) hnodup hmem).1
    rw [hsnap] at hc
    simp only [specPlannedMod, heqv, if_true, Option.toList] at hc
    have hmf : m ∈ (s.as_modifications store).1.filter
        (fun m => decide (m.entity_key = k)) :=
      List.mem_filter.mpr ⟨hm, by simp [hkey]⟩
    rw [hc] at hmf
    simp at hmf
  · intro k cur u hmem hsnap heqv m hm hkey
    have hc := (as_modifications_of_mem s store k (.overwrite u) hnodup hmem).1
    rw [hsnap] at hc
    simp only [specPlannedMod, heqv, if_true, Option.toList] at hc
    have hmf : m ∈ (s.as_modifications store).1.filter
        (fun m => decide (m.entity_key = k)) :=
      List.mem_filter.mpr ⟨hm, by simp [hkey]⟩
    rw [hc] at hmf
    simp at hmf
  · intro k hmem hsnap m hm hkey
    have hc := (as_modifications_of_mem s store k .remove hnodup hmem).1
    rw [hsnap] at hc
    simp only [specPlannedMod, Option.toList] at hc
    have hmf : m ∈ (s.as_modifications store).1.filter
        (fun m => decide (m.entity_key = k)) :=
      List.mem_filter.mpr ⟨hm, by simp [hkey]⟩
    rw [hc] at hmf
    simp at hmf

theorem C6_minimal_modifications_witness :
    ((KMap.keys [(⟨"d", EntityType.data "T", "i"⟩, EntityOp.remove)]).Nodup) ∧
    ((⟨[], [(⟨"d", EntityType.data "T", "i"⟩, EntityOp.remove)], [], false⟩ :
        EntityCache).as_modifications (fun _ => none)).1.length ≤ 1 :=
  ⟨by decide,
   (C6_minimal_modifications
      ⟨[], [(⟨"d", EntityType.data "T", "i"⟩, EntityOp.remove)], [], false⟩
      (fun _ => none) (by decide)).1⟩

/-- C3: `get` consults the handler buffer on top of the block buffer on top
of a read-through snapshot: a cached snapshot is used as-is; on first touch
the store's entity has its `__typename` attribute removed before being
cached and returned; a store error propagates unchanged. -/
theorem C3_get_layering (s : EntityCache)
    (store : EntityKey → Except QueryExecutionError (Option Entity))
    (k : EntityKey) :
    (∀ err, s.current.get k = none → store k = .error err →
        EntityCache.get s store k = .error err) ∧
    (∀ v, s.current.get k = some v →
        EntityCache.get s store k = .ok (applyBuffered s k v, s.current)) ∧
    (∀ e, s.current.get k = none → store k = .ok e →
        EntityCache.get s store k =
          .ok (applyBuffered s k (e.map (fun x => x.eraseAttr "__typename")),
               s.current.insert k (e.map (fun x => x.eraseAttr "__typename"))) ∧
        ∀ ent, e.map (fun x => x.eraseAttr "__typename") = some ent →
            Entity.lookupAttr ent "__typename" = none) := by
  refine ⟨?_, ?_, ?_⟩
  · intro err hc hst
    simp [EntityCache.get, Cache.get_entity, hc, hst]
  · intro v hc
    simp [EntityCache.get, Cache.get_entity, hc, applyBuffered]
  · intro e hc hst
    constructor
    · simp [EntityCache.get, Cache.get_entity, hc, hst, applyBuffered]
    · intro ent hent
      rcases e with _ | x
      · simp [Option.map] at hent
      · simp only [Option.map, Option.some.injEq] at hent
        subst hent
        simp [Entity.lookupAttr_eraseAttr]

theorem C3_get_layering_witness :
    EntityCache.new.get
        (fun _ => .ok (some [("__typename", Value.scalar (.str "X")),
                            ("x", Value.scalar (.int 1))]))
        ⟨"d", EntityType.data "T", "i"⟩ =
      .ok (some [("x", Value.scalar (.int 1))],
           [(⟨"d", EntityType.data "T", "i"⟩,
             some [("x", Value.scalar (.int 1))])]) ∧
    Entity.lookupAttr [("x", Value.scalar (.int 1))] "__typename" = none :=
  ⟨((C3_get_layering EntityCache.new
      (fun _ => .ok (some [("__typename", Value.scalar (.str "X")),
                          ("x", Value.scalar (.int 1))]))
      ⟨"d", EntityType.data "T", "i"⟩).2.2
      (some [("__typename", Value.scalar (.str "X")),
             ("x", Value.scalar (.int 1))]) rfl rfl).1,
   ((C3_get_layering EntityCache.new
      (fun _ => .ok (some [("__typename", Value.scalar (.str "X")),
                          ("x", Value.scalar (.int 1))]))
      ⟨"d", EntityType.data "T", "i"⟩).2.2
      (some [("__typename", Value.scalar (.str "X")),
             ("x", Value.scalar (.int 1))]) rfl rfl).2
      [("x", Value.scalar (.int 1))] rfl⟩

/-- C10: for a key whose snapshot is `None`, a within-block `get` after
`set(key, e)` returns `e` exactly as given, null attributes included, while
the planned modification is `Insert(key, d)` with `d` the null-stripped
merge of `e` into the empty entity — so a handler can read null attributes
that the committed entity will not contain. -/
theorem C10_within_block_null_visibility (k : EntityKey) (e : Entity)
    (a : Attribute)
    (store : EntityKey → Except QueryExecutionError (Option Entity))
    (pstore : EntityKey → Option Entity)
    (hstore : store k = .ok none) (hpstore : pstore k = none)
    (hnodup : (Entity.keys e).Nodup) (ha : e.lookupAttr a = some Value.null) :
    (EntityCache.new.set k e).get store k = .ok (some e, [(k, none)]) ∧
    ((EntityCache.new.set k e).as_modifications pstore).1 =
      [.insert k (Entity.merge_remove_null_fields [] e)] ∧
    (Entity.merge_remove_null_fields [] e).lookupAttr a = none := by
  refine ⟨?_, ?_, ?_⟩
  · show EntityCache.get ⟨[], [(k, EntityOp.update e)], [], false⟩ store k = _
    simp [EntityCache.get, Cache.get_entity, KMap.get, KMap.insert, KMap.erase,
      hstore, EntityOp.apply_to]
  · show (EntityCache.as_modifications
        ⟨[], [(k, EntityOp.update e)], [], false⟩ pstore).1 = _
    simp [EntityCache.as_modifications, fetchMissing, fetchStep, KMap.get,
      KMap.insert, KMap.erase, hpstore, runPlan, planStep, Option.join]
  · rw [Entity.lookupAttr_merge_remove_null_fields [] e a hnodup, ha]
    simp

theorem C10_within_block_null_visibility_witness :
    (EntityCache.new.set ⟨"d", EntityType.data "T", "i"⟩
        [("id", Value.scalar (.str "i")), ("a", Value.null)]).get
        (fun _ => .ok none) ⟨"d", EntityType.data "T", "i"⟩ =
      .ok (some [("id", Value.scalar (.str "i")), ("a", Value.null)],
           [(⟨"d", EntityType.data "T", "i"⟩, none)]) ∧
    ((EntityCache.new.set ⟨"d", EntityType.data "T", "i"⟩
        [("id", Value.scalar (.str "i")), ("a", Value.null)]).as_modifications
        (fun _ => none)).1 =
      [.insert ⟨"d", EntityType.data "T", "i"⟩
        (Entity.merge_remove_null_fields []
          [("id", Value.scalar (.str "i")), ("a", Value.null)])] ∧
    (Entity.merge_remove_null_fields []
        [("id", Value.scalar (.str "i")), ("a", Value.null)]).lookupAttr "a" =
      none :=
  C10_within_block_null_visibility ⟨"d", EntityType.data "T", "i"⟩
    [("id", Value.scalar (.str "i")), ("a", Value.null)] "a"
    (fun _ => .ok none) (fun _ => none) rfl rfl (by decide) (by decide)

/-- C4 is false as stated: the throttled stream can deliver two events with
only one timer fire between them (i.e. within one interval) — when the
source errors with a non-empty pending accumulator, the accumulator is
flushed immediately, not at the next timer fire. Here the first poll's
timer fires and emits, and the second poll (timer not fired) emits again. -/
theorem C4_throttle_counterexample :
    (runPolls ⟨false, none⟩
      [⟨true, [⟨0, [⟨"d", EntityType.data "T", "e1", .set⟩]⟩], .notReady⟩,
       ⟨false, [⟨1, [⟨"d", EntityType.data "T", "e2", .set⟩]⟩], .errored⟩]).1 =
      [.ready (some ⟨0, [⟨"d", EntityType.data "T", "e1", .set⟩]⟩),
       .ready (some ⟨1, [⟨"d", EntityType.data "T", "e2", .set⟩]⟩)] ∧
    [⟨true, [⟨0, [⟨"d", EntityType.data "T", "e1", .set⟩]⟩], .notReady⟩,
     ⟨false, [⟨1, [⟨"d", EntityType.data "T", "e2", .set⟩]⟩],
       .errored⟩].countP (fun i : PollIn => i.timerFired) = 1 := by
  refine ⟨rfl, rfl⟩

/-- C4 (amended): while the deployment is not synced, a complete run of the
throttled stream (the source ends) emits exactly the changes the source
yielded (no loss); an emission can happen only at a poll where the interval
timer fired or where the source ended or errored (so at most one event per
interval apart from the final flush); the pending accumulator never
survives a poll at which the timer fired (no event is held longer than one
interval); and once the deployment is synced the source's polls are passed
through unchanged. -/
theorem C4_throttle_guarantees :
    (∀ (body : List PollIn) (last : PollIn),
        (∀ i ∈ body, i.term = .notReady) → last.term = .ended →
        emittedChanges (runPolls ⟨false, none⟩ (body ++ [last])).1 =
          sourcedChanges (body ++ [last])) ∧
    (∀ (s : ThrottleState) (i : PollIn),
        s.hadErr = false → i.term = .notReady → i.timerFired = false →
        ∀ ev, (pollStep s i).1 ≠ .ready (some ev)) ∧
    (∀ (s : ThrottleState) (i : PollIn),
        s.hadErr = false → i.timerFired = true →
        (pollStep s i).2.pending = none) ∧
    (∀ o : PollOut, pollSynced o = o) := by
  refine ⟨?_, ?_, ?_, fun o => rfl⟩
  · intro body last hb hl
    rw [runPolls_append]
    have hbody := runPolls_changes body ⟨false, none⟩ rfl hb
    have hstep := pollStep_changes (runPolls ⟨false, none⟩ body).2 last hbody.2
    have hpend := pollStep_pending_ended (runPolls ⟨false, none⟩ body).2 last
      hbody.2 hl
    rw [hpend] at hstep
    show emittedChanges ((runPolls ⟨false, none⟩ body).1 ++
        [(pollStep (runPolls ⟨false, none⟩ body).2 last).1]) = _
    rw [emittedChanges_append, sourcedChanges_append]
    have h1 : emittedChanges [(pollStep (runPolls ⟨false, none⟩ body).2 last).1] =
        outChanges (pollStep (runPolls ⟨false, none⟩ body).2 last).1 := by
      simp [emittedChanges, outChanges]
    have h2 : sourcedChanges [last] = evsChanges last.evs := by
      simp [sourcedChanges, evsChanges]
    rw [h1, h2]
    have h3 : outChanges (pollStep (runPolls ⟨false, none⟩ body).2 last).1 =
        pendingChanges (runPolls ⟨false, none⟩ body).2.pending ++
          evsChanges last.evs := by
      simpa [pendingChanges] using hstep
    rw [h3, ← List.append_assoc, hbody.1]
    simp [pendingChanges]
  · intro s i hok ht htf ev
    unfold pollStep
    rw [hok, ht, htf]
    simp
  · intro s i hok htf
    unfold pollStep
    rw [hok, htf]
    rcases hfold : i.evs.foldl StoreEvent.accum s.pending with _ | ev
    · cases i.term <;> simp [hfold]
    · cases i.term <;> simp [hfold]

theorem C4_throttle_guarantees_witness :
    emittedChanges (runPolls ⟨false, none⟩
      ([⟨true, [⟨0, [⟨"d", EntityType.data "T", "e1", .set⟩]⟩], .notReady⟩] ++
       [⟨false, [], .ended⟩])).1 =
      sourcedChanges
        ([⟨true, [⟨0, [⟨"d", EntityType.data "T", "e1", .set⟩]⟩], .notReady⟩] ++
         [⟨false, [], .ended⟩]) :=
  C4_throttle_guarantees.1
    [⟨true, [⟨0, [⟨"d", EntityType.data "T", "e1", .set⟩]⟩], .notReady⟩]
    ⟨false, [], .ended⟩
    (by intro i hi; simp at hi; subst hi; rfl) rfl

/-- C8: while not synced, when the source errors with a non-empty pending
accumulator the throttled stream first emits the accumulated event and
records the deferred error, which the next poll — whatever its input —
reports; when the pending accumulator is empty at the error, the error is
returned immediately. -/
theorem C8_error_deferral (s : ThrottleState) (i : PollIn)
    (hok : s.hadErr = false) (herr : i.term = .errored) :
    (∀ p, i.evs.foldl StoreEvent.accum s.pending = some p →
        (pollStep s i).1 = .ready (some p) ∧
        (pollStep s i).2 = ⟨true, none⟩ ∧
        ∀ i', (pollStep (⟨true, none⟩ : ThrottleState) i').1 = .err) ∧
    (i.evs.foldl StoreEvent.accum s.pending = none →
        (pollStep s i).1 = .err) := by
  constructor
  · intro p hp
    refine ⟨?_, ?_, ?_⟩
    · unfold pollStep
      rw [hok, herr, hp]
      simp
    · unfold pollStep
      rw [hok, herr, hp]
      simp
    · intro i'
      unfold pollStep
      simp
  · intro hp
    unfold pollStep
    rw [hok, herr, hp]
    simp

theorem C8_error_deferral_witness :
    (pollStep ⟨false, some ⟨0, [⟨"d", EntityType.data "T", "e1", .set⟩]⟩⟩
        ⟨false, [], .errored⟩).1 =
      .ready (some ⟨0, [⟨"d", EntityType.data "T", "e1", .set⟩]⟩) ∧
    (pollStep ⟨false, some ⟨0, [⟨"d", EntityType.data "T", "e1", .set⟩]⟩⟩
        ⟨false, [], .errored⟩).2 = ⟨true, none⟩ ∧
    ∀ i', (pollStep (⟨true, none⟩ : ThrottleState) i').1 = .err :=
  (C8_error_deferral ⟨false, some ⟨0, [⟨"d", EntityType.data "T", "e1", .set⟩]⟩⟩
      ⟨false, [], .errored⟩ rfl rfl).1
    ⟨0, [⟨"d", EntityType.data "T", "e1", .set⟩]⟩ rfl

/-- C7 is false as stated at the genesis boundary and when the head already
sits on the maximum-number block. With only the genesis block stored and
`ancestor_count = 3`, the update returns the empty list and moves the head
to genesis although genesis's parent — within 3 steps — is absent. With
blocks 3..5 stored and the head already at block 5, whose ancestor walk
hits a missing parent within 3 steps, the update still returns the empty
list (no candidate above the head) instead of a non-empty missing list. -/
theorem C7_chain_head_counterexample :
    attempt_chain_head_update ⟨[⟨"g", 0, "np"⟩], none⟩ 3 =
      ([], ⟨[⟨"g", 0, "np"⟩], some ⟨"g", 0, "np"⟩⟩) ∧
    lookupBlock [⟨"g", 0, "np"⟩] "np" = none ∧
    attempt_chain_head_update
      ⟨[⟨"h3", 3, "h2"⟩, ⟨"h4", 4, "h3"⟩, ⟨"h5", 5, "h4"⟩],
        some ⟨"h5", 5, "h4"⟩⟩ 3 =
      ([], ⟨[⟨"h3", 3, "h2"⟩, ⟨"h4", 4, "h3"⟩, ⟨"h5", 5, "h4"⟩],
        some ⟨"h5", 5, "h4"⟩⟩) ∧
    candidate [⟨"h3", 3, "h2"⟩, ⟨"h4", 4, "h3"⟩, ⟨"h5", 5, "h4"⟩] =
      some ⟨"h5", 5, "h4"⟩ ∧
    lookupBlock [⟨"h3", 3, "h2"⟩, ⟨"h4", 4, "h3"⟩, ⟨"h5", 5, "h4"⟩] "h2" =
      none := by
  refine ⟨rfl, rfl, rfl, rfl, rfl⟩

/-- C7 (amended): `attempt_chain_head_update` never moves the head to a
block of lower number; when the candidate of maximum number is above the
current head and some parent is absent within `min ancestor_count
candidate.number` steps, it returns that non-empty missing list and leaves
the state unchanged; and after a call that returns the empty list with an
updated head, the parent chain from the new head is fully resident to depth
`min ancestor_count head.number`. -/
theorem C7_chain_head_update (s : ChainState) (n : Nat) :
    (∀ h0, s.head = some h0 →
        ∃ h1, (attempt_chain_head_update s n).2.head = some h1 ∧
          h0.number ≤ h1.number) ∧
    (∀ c, candidate s.blocks = some c → notAboveHead c s.head = false →
        walkMissing s.blocks c (min n c.number) ≠ [] →
        attempt_chain_head_update s n =
          (walkMissing s.blocks c (min n c.number), s) ∧
        (attempt_chain_head_update s n).1 ≠ []) ∧
    (∀ c, (attempt_chain_head_update s n).1 = [] →
        (attempt_chain_head_update s n).2.head = some c →
        s.head ≠ some c →
        ∀ i, i ≤ min n c.number → (ancestorAt s.blocks c i).isSome) := by
  refine ⟨?_, ?_, ?_⟩
  · intro h0 hh
    cases hcand : candidate s.blocks with
    | none =>
      exact ⟨h0, by simp [attempt_chain_head_update, hcand, hh], le_refl _⟩
    | some c =>
      cases hab : notAboveHead c s.head with
      | true =>
        refine ⟨h0, ?_, le_refl _⟩
        rw [hh] at hab
        simp [attempt_chain_head_update, hcand, hab, hh]
      | false =>
        have hlt : h0.number ≤ c.number := by
          rw [hh] at hab
          simp only [notAboveHead, decide_eq_false_iff_not, not_le] at hab
          omega
        rw [hh] at hab
        by_cases hmiss : walkMissing s.blocks c (min n c.number) = []
        · refine ⟨c, ?_, hlt⟩
          simp [attempt_chain_head_update, hcand, hab, hmiss, hh]
        · refine ⟨h0, ?_, le_refl _⟩
          simp [attempt_chain_head_update, hcand, hab, hmiss, hh]
  · intro c hcand hab hmiss
    constructor
    · simp [attempt_chain_head_update, hcand, hab, hmiss]
    · simp [attempt_chain_head_update, hcand, hab, hmiss]
  · intro c hret hhead hchanged i hi
    cases hcand : candidate s.blocks with
    | none =>
      rw [show (attempt_chain_head_update s n).2 = s by
        simp [attempt_chain_head_update, hcand]] at hhead
      exact absurd hhead hchanged
    | some c0 =>
      cases hab : notAboveHead c0 s.head with
      | true =>
        rw [show (attempt_chain_head_update s n).2 = s by
          simp [attempt_chain_head_update, hcand, hab]] at hhead
        exact absurd hhead hchanged
      | false =>
        by_cases hmiss : walkMissing s.blocks c0 (min n c0.number) = []
        · have hc0 : (attempt_chain_head_update s n).2.head = some c0 := by
            simp [attempt_chain_head_update, hcand, hab, hmiss]
          rw [hc0] at hhead
          obtain rfl : c0 = c := by injection hhead
          exact (walkMissing_eq_nil_iff s.blocks c0 (min n c0.number)).mp hmiss i hi
        · rw [show (attempt_chain_head_update s n).2 = s by
            simp [attempt_chain_head_update, hcand, hab, hmiss]] at hhead
          exact absurd hhead hchanged

theorem C7_chain_head_update_witness :
    attempt_chain_head_update
      ⟨[⟨"h3", 3, "h2"⟩, ⟨"h4", 4, "h3"⟩, ⟨"h5", 5, "h4"⟩], none⟩ 3 =
      (["h2"],
       ⟨[⟨"h3", 3, "h2"⟩, ⟨"h4", 4, "h3"⟩, ⟨"h5", 5, "h4"⟩], none⟩) :=
  ((C7_chain_head_update
      ⟨[⟨"h3", 3, "h2"⟩, ⟨"h4", 4, "h3"⟩, ⟨"h5", 5, "h4"⟩], none⟩ 3).2.1
    ⟨"h5", 5, "h4"⟩ rfl rfl (by decide)).1

end GraphStore
